/-
Verification of the Trading_Alert portable tree-ensemble evaluator and
feature/target pipeline.

Shallow embedding conventions:
  * Python floats are modelled as exact rationals (ℚ); IEEE rounding, inf and
    NaN produced by *float arithmetic on scalars* are outside the model, but
    pandas/numpy cell values that can be NaN or ±inf are modelled explicitly
    by the `PFloat` type further below.
  * Python list indexing (which supports negative indices and raises
    IndexError when out of range) is modelled by `pyGet?`, returning `none`
    exactly when the Python expression would raise IndexError.
  * The tree-traversal `while` loop of `XGBoostTree.predict`
    (src/mobile_app/flet_app/services/model_inference.py) can diverge on a
    cyclic node graph; it is modelled with fuel.  The loop state is just the
    current node, and a terminating run never revisits a node (a revisited
    node would repeat forever since the transition is deterministic), so any
    terminating run takes at most `N` iterations; the fuel `N + 1` used by
    `XGBoostTree.predict` therefore reproduces every terminating run of the
    source, and `PredictResult.fuelOut` marks true divergence.
-/
import Mathlib

namespace TradingAlert

/-- Python list indexing: non-negative indices address from the front,
negative indices address from the back (`l[-1]` is the last element), and
`none` is returned exactly when Python raises IndexError. -/
def pyGet? {α : Type} (l : List α) (i : ℤ) : Option α :=
  if 0 ≤ i then l.get? i.toNat
  else if (-i).toNat ≤ l.length then l.get? (l.length - (-i).toNat)
  else none

/-- A single decision tree, as stored by `XGBoostTree.__init__`
(model_inference.py lines 25-38): parallel arrays of left/right child
indices, split feature indices, split thresholds and node weights. -/
structure XGBoostTree where
  left_children : List ℤ
  right_children : List ℤ
  split_indices : List ℤ
  split_conditions : List ℚ
  base_weights : List ℚ
deriving DecidableEq

/-- `self.is_leaf = [left == -1 for left in left_children]`
(model_inference.py line 38). -/
def XGBoostTree.leafFlags (t : XGBoostTree) : List Bool :=
  t.left_children.map (fun l => l == -1)

/-- Outcome of running `XGBoostTree.predict`: a returned value, a raised
IndexError, or divergence of the `while` loop (fuel exhaustion). -/
inductive PredictResult where
  | val : ℚ → PredictResult
  | indexError : PredictResult
  | fuelOut : PredictResult
deriving DecidableEq

/-- The body of `XGBoostTree.predict` (model_inference.py lines 67-86),
fuel-indexed.  One unit of fuel is one iteration of the `while` loop; the
sequencing and every list subscript of the source are preserved:

    node = 0
    while not self.is_leaf[node]:
        feat_idx = self.split_indices[node]
        threshold = self.split_conditions[node]
        if feat_idx >= len(features):
            return self.base_weights[node]
        if features[feat_idx] < threshold:
            node = self.left_children[node]
        else:
            node = self.right_children[node]
        if node < 0 or node >= len(self.is_leaf):
            break
    return self.base_weights[node]
-/
def predictLoop (t : XGBoostTree) (features : List ℚ) : ℤ → ℕ → PredictResult
  | _, 0 => .fuelOut
  | node, fuel + 1 =>
    match pyGet? t.leafFlags node with
    | none => .indexError
    | some true =>
      match pyGet? t.base_weights node with
      | none => .indexError
      | some w => .val w
    | some false =>
      match pyGet? t.split_indices node with
      | none => .indexError
      | some feat_idx =>
        match pyGet? t.split_conditions node with
        | none => .indexError
        | some threshold =>
          if (features.length : ℤ) ≤ feat_idx then
            match pyGet? t.base_weights node with
            | none => .indexError
            | some w => .val w
          else
            match pyGet? features feat_idx with
            | none => .indexError
            | some fv =>
              match pyGet? (if fv < threshold then t.left_children else t.right_children) node with
              | none => .indexError
              | some node' =>
                if node' < 0 ∨ (t.leafFlags.length : ℤ) ≤ node' then
                  match pyGet? t.base_weights node' with
                  | none => .indexError
                  | some w => .val w
                else predictLoop t features node' fuel

/-- `XGBoostTree.predict`.  Fuel `N + 1` covers every terminating run of the
source loop (see the header comment). -/
def XGBoostTree.predict (t : XGBoostTree) (features : List ℚ) : PredictResult :=
  predictLoop t features 0 (t.left_children.length + 1)

/-- The ensemble held by `XGBoostModel.__init__` (model_inference.py
lines 89-94): trees plus a scalar base score. -/
structure XGBoostModel where
  trees : List XGBoostTree
  base_score : ℚ
deriving DecidableEq

/-- One step of the accumulation in `XGBoostModel.predict_raw`
(`total += tree.predict(features)`), with a tree's IndexError or divergence
propagating out of the accumulation. -/
def rawStep (features : List ℚ) (acc : PredictResult) (t : XGBoostTree) : PredictResult :=
  match acc with
  | .val s =>
    match t.predict features with
    | .val w => .val (s + w)
    | e => e
  | e => e

/-- `XGBoostModel.predict_raw` (model_inference.py lines 108-113): the base
score plus the sum of the per-tree outputs. -/
def XGBoostModel.predict_raw (m : XGBoostModel) (features : List ℚ) : PredictResult :=
  m.trees.foldl (rawStep features) (.val m.base_score)

/-- The logistic function `1 / (1 + e^-x)` of model_inference.py line 118,
on the exact rational raw score. -/
noncomputable def sigmoid (x : ℚ) : ℝ :=
  1 / (1 + Real.exp (-(x : ℝ)))

/-- `XGBoostModel.predict_proba` (model_inference.py lines 115-118): `none`
when `predict_raw` raises or diverges. -/
noncomputable def XGBoostModel.predict_proba (m : XGBoostModel) (features : List ℚ) :
    Option ℝ :=
  match m.predict_raw features with
  | .val r => some (sigmoid r)
  | _ => none

/-- Specification-side traversal relation, written from the evaluation
contract of the specification (§4.5): start at node 0; at a leaf (left child
index = −1 sentinel) stop with that node's weight; at an internal node whose
split feature index addresses the supplied feature vector, move to the left
child exactly when the feature value is strictly below the split threshold,
else to the right child, the child being a valid node index.  The middle
index counts traversal steps. -/
inductive ReachesIn (t : XGBoostTree) (f : List ℚ) : ℕ → ℕ → ℚ → Prop where
  | leaf (n : ℕ) (w : ℚ) :
      t.left_children.get? n = some (-1) →
      t.base_weights.get? n = some w →
      ReachesIn t f n 0 w
  | inner (n k : ℕ) (w : ℚ) (l r fi : ℤ) (c v : ℚ) (child : ℤ) :
      t.left_children.get? n = some l →
      l ≠ -1 →
      t.right_children.get? n = some r →
      t.split_indices.get? n = some fi →
      t.split_conditions.get? n = some c →
      0 ≤ fi →
      fi.toNat < f.length →
      f.get? fi.toNat = some v →
      child = (if v < c then l else r) →
      0 ≤ child →
      child.toNat < t.left_children.length →
      ReachesIn t f child.toNat k w →
      ReachesIn t f n (k + 1) w

end TradingAlert

namespace TradingAlert

/-- Hand-built single-tree example of the specification's round-trip test:
root split `feature[0] < 5.0`, left leaf weight −1.0, right leaf
weight +1.0. -/
def exTreeC1 : XGBoostTree :=
  { left_children := [1, -1, -1]
    right_children := [2, -1, -1]
    split_indices := [0, 0, 0]
    split_conditions := [5, 0, 0]
    base_weights := [0, -1, 1] }

/-- Single-tree ensemble with base score 0 around `exTreeC1`. -/
def exModelC1 : XGBoostModel :=
  { trees := [exTreeC1], base_score := 0 }

/-- Out-of-range-child example: node 0 is internal and both children point to
index 1, one past the end of the single-node arrays. -/
def exTreeC4 : XGBoostTree :=
  { left_children := [1]
    right_children := [1]
    split_indices := [0]
    split_conditions := [0]
    base_weights := [7] }

/-- Negative-child example: at node 0 the right child is the sentinel −1
while the left child is a real node, so routing right leaves the node
range below 0. -/
def exTreeC4n : XGBoostTree :=
  { left_children := [1, -1]
    right_children := [-1, -1]
    split_indices := [0, 0]
    split_conditions := [5, 0]
    base_weights := [10, 20] }

/-- Example tree for C5: node 0 splits on feature index 9. -/
def exTreeC5 : XGBoostTree :=
  { left_children := [1, -1, -1]
    right_children := [2, -1, -1]
    split_indices := [9, 0, 0]
    split_conditions := [5, 0, 0]
    base_weights := [3, 4, 6] }

/-- A JSON value as seen by `XGBoostTree._safe_float`.  `num` covers Python
ints and floats (exact rationals in the model), `boolv` covers Python bools
(which are `int` subclasses, so `float(True) = 1.0`), `obj` stands for any
dict, and `null` for `None`. -/
inductive JsonVal where
  | num : ℚ → JsonVal
  | boolv : Bool → JsonVal
  | str : String → JsonVal
  | arr : List JsonVal → JsonVal
  | obj : JsonVal
  | null : JsonVal

/-- The character set of `val.strip("[]'\" ")` in `_safe_float`. -/
def stripChars : List Char := ['[', ']', '\'', '\"', ' ']

/-- Python `str.strip(chars)`: remove leading and trailing characters that
belong to the set. -/
def pyStrip (s : String) : String :=
  let mem := fun c => stripChars.contains c
  String.mk (((s.data.dropWhile mem).reverse.dropWhile mem).reverse)

/-- Python whitespace stripped by `float(str)` before parsing. -/
def pyWhitespace : List Char := [' ', '\t', '\n', '\r', '\x0b', '\x0c']

/-- Value of a digit string. -/
def digitsVal (l : List Char) : ℕ :=
  l.foldl (fun a c => 10 * a + (c.toNat - '0'.toNat)) 0

/-- Parse the optional exponent suffix of a float literal; returns the
exponent, or `none` when the remaining characters are not exactly a valid
exponent (the suffix must consume the whole rest of the string). -/
def parseExponent (l : List Char) : Option ℤ :=
  match l with
  | [] => some 0
  | e :: rest =>
    if e = 'e' ∨ e = 'E' then
      let signed : Bool × List Char :=
        match rest with
        | '+' :: r => (false, r)
        | '-' :: r => (true, r)
        | r => (false, r)
      let ds := signed.2
      if ds ≠ [] ∧ ds.all Char.isDigit then
        some (if signed.1 then -(digitsVal ds : ℤ) else (digitsVal ds : ℤ))
      else none
    else none

/-- Digit-level decomposition of a finite Python float literal: sign,
integer digits, fractional digits with their count, and exponent. -/
structure FloatLit where
  negative : Bool
  intDigits : ℕ
  fracDigits : ℕ
  fracLen : ℕ
  exponent : ℤ
deriving DecidableEq

/-- Exact rational value of a decomposed float literal. -/
def FloatLit.val (p : FloatLit) : ℚ :=
  (if p.negative then -1 else 1) *
    ((p.intDigits : ℚ) + (p.fracDigits : ℚ) / (10 : ℚ) ^ p.fracLen) * (10 : ℚ) ^ p.exponent

/-- Digit-level model of Python `float(s)` restricted to finite decimal
literals: optional surrounding whitespace, optional sign, digits with an
optional decimal point, optional exponent.  `none` models `float` raising
`ValueError`.  Out of model (documented approximations): the special strings
`inf`/`infinity`/`nan` (not representable in ℚ) and digit-grouping
underscores are rejected here although Python accepts them, and IEEE-754
rounding of the exact decimal value is ignored. -/
def parseFloatLit (s : String) : Option FloatLit :=
  let l := (s.data.dropWhile (fun c => pyWhitespace.contains c)).reverse
    |>.dropWhile (fun c => pyWhitespace.contains c) |>.reverse
  let signed : Bool × List Char :=
    match l with
    | '+' :: r => (false, r)
    | '-' :: r => (true, r)
    | r => (false, r)
  let intPart := signed.2.takeWhile Char.isDigit
  let rest := signed.2.dropWhile Char.isDigit
  let core : Option ((ℕ × ℕ × ℕ) × List Char) :=
    match rest with
    | '.' :: r2 =>
      let fracPart := r2.takeWhile Char.isDigit
      let r3 := r2.dropWhile Char.isDigit
      if intPart = [] ∧ fracPart = [] then none
      else some ((digitsVal intPart, digitsVal fracPart, fracPart.length), r3)
    | r2 =>
      if intPart = [] then none else some ((digitsVal intPart, 0, 0), r2)
  match core with
  | none => none
  | some (mant, r) =>
    match parseExponent r with
    | none => none
    | some e => some ⟨signed.1, mant.1, mant.2.1, mant.2.2, e⟩

/-- Model of Python `float(s)` on finite decimal literals (see
`parseFloatLit`). -/
def parsePyFloat (s : String) : Option ℚ :=
  (parseFloatLit s).map FloatLit.val

/-- `XGBoostTree._safe_float` (model_inference.py lines 40-54): numbers map
to themselves, strings are stripped of brackets/quotes/spaces and parsed
(defaulting to 0.0 on failure), non-empty lists recurse on their first
element, and everything else yields 0.0. -/
def safeFloat : JsonVal → ℚ
  | .num q => q
  | .boolv b => if b then 1 else 0
  | .str s =>
    match parsePyFloat (pyStrip s) with
    | some q => q
    | none => 0
  | .arr [] => 0
  | .arr (v :: _) => safeFloat v
  | .obj => 0
  | .null => 0

/-- `XGBoostTree.from_json` (model_inference.py lines 56-65): the three index
arrays are taken verbatim, while `split_conditions` and `base_weights` are
coerced element-wise through `_safe_float`. -/
def treeFromJson (left right idx : List ℤ) (conds weights : List JsonVal) : XGBoostTree :=
  { left_children := left
    right_children := right
    split_indices := idx
    split_conditions := conds.map safeFloat
    base_weights := weights.map safeFloat }

/-- `ModelInference.HORIZONS` (model_inference.py line 132). -/
def HORIZONS : List String := ["4H", "2D", "5D"]

/-- The legacy fallback feature order of `ModelInference.predict`
(model_inference.py line 206). -/
def legacyFeatureOrder : List String := ["Vol_Z", "Elasticity", "day_of_week", "hour_of_day"]

/-- `feature_list = [features.get(f, 0.0) for f in feature_order]`
(model_inference.py line 209); the feature dictionary is modelled as an
association list. -/
def buildFeatureList (order : List String) (features : List (String × ℚ)) : List ℚ :=
  order.map (fun f => ((features.lookup f).getD 0))

/-- Python `round` to an integer: round half to even (on the exact real
value; binary floating-point representation error is outside the model). -/
noncomputable def pyRound (y : ℝ) : ℤ :=
  if Int.fract y < 1 / 2 then ⌊y⌋
  else if 1 / 2 < Int.fract y then ⌊y⌋ + 1
  else if Even ⌊y⌋ then ⌊y⌋ else ⌊y⌋ + 1

/-- Python `round(x, 1)`: one decimal place, half to even. -/
noncomputable def pyRound1 (x : ℝ) : ℝ :=
  (pyRound (x * 10) : ℝ) / 10

/-- One iteration of the horizon loop of `ModelInference.predict`
(model_inference.py lines 212-221): 0.0 when no model is loaded for the
horizon, else the model's probability as a percentage rounded to one
decimal; `none` models an exception escaping from `predict_proba`. -/
noncomputable def horizonEntry (models : String → Option XGBoostModel)
    (order : List String) (features : List (String × ℚ)) (h : String) :
    Option (String × ℝ) :=
  match models h with
  | none => some (h, (0 : ℝ))
  | some m =>
    match m.predict_proba (buildFeatureList order features) with
    | some p => some (h, pyRound1 (p * 100))
    | none => none

/-- `ModelInference.predict` (model_inference.py lines 191-223): build the
feature vector from the symbol's feature order, then run the horizon loop
over `HORIZONS`.  The loaded-models dictionary is modelled as a function
from horizon to an optional ensemble. -/
noncomputable def inferencePredict (models : String → Option XGBoostModel)
    (order : List String) (features : List (String × ℚ)) :
    Option (List (String × ℝ)) :=
  HORIZONS.mapM (horizonEntry models order features)

/-- Example loaded-models dictionary for C9: only the 4H horizon has a
model. -/
def exModelsC9 : String → Option XGBoostModel :=
  fun h => if h = "4H" then some exModelC1 else none

/-- A pandas/numpy float cell: a finite rational, NaN, or ±infinity. -/
inductive PFloat where
  | num : ℚ → PFloat
  | nan : PFloat
  | inf : PFloat
  | ninf : PFloat
deriving DecidableEq

/-- A cell is finite when it is a plain rational (not NaN, not ±inf). -/
def PFloat.isFinite : PFloat → Bool
  | .num _ => true
  | _ => false

/-- IEEE-style addition on cells. -/
def PFloat.add : PFloat → PFloat → PFloat
  | .nan, _ => .nan
  | _, .nan => .nan
  | .num a, .num b => .num (a + b)
  | .inf, .ninf => .nan
  | .ninf, .inf => .nan
  | .inf, _ => .inf
  | _, .inf => .inf
  | .ninf, _ => .ninf
  | _, .ninf => .ninf

/-- IEEE-style subtraction on cells. -/
def PFloat.sub : PFloat → PFloat → PFloat
  | .nan, _ => .nan
  | _, .nan => .nan
  | .num a, .num b => .num (a - b)
  | .inf, .inf => .nan
  | .ninf, .ninf => .nan
  | .inf, _ => .inf
  | .ninf, _ => .ninf
  | .num _, .inf => .ninf
  | .num _, .ninf => .inf

/-- IEEE-style division on cells, with numpy's array semantics for division
by zero: `0/0 = NaN` and `x/0 = ±inf` (sign of `x`). -/
def PFloat.div : PFloat → PFloat → PFloat
  | .nan, _ => .nan
  | _, .nan => .nan
  | .num a, .num b =>
    if b = 0 then (if a = 0 then .nan else if 0 < a then .inf else .ninf)
    else .num (a / b)
  | .num _, .inf => .num 0
  | .num _, .ninf => .num 0
  | .inf, .num b => if b < 0 then .ninf else .inf
  | .ninf, .num b => if b < 0 then .inf else .ninf
  | .inf, .inf => .nan
  | .inf, .ninf => .nan
  | .ninf, .inf => .nan
  | .ninf, .ninf => .nan

/-- `Series.fillna(q)`: NaN cells become `q`. -/
def fillna (q : ℚ) : PFloat → PFloat
  | .nan => .num q
  | c => c

/-- `Series.replace(a, b)`: cells exactly equal to the finite value `a`
become `b`. -/
def replaceVal (a b : ℚ) : PFloat → PFloat
  | .num x => if x = a then .num b else .num x
  | c => c

/-- The final `df.replace([np.inf, -np.inf], 0).fillna(0)` of
`StockEngine.calculate_features` (stock_engine.py line 154) applied to one
cell. -/
def sanitize : PFloat → PFloat
  | .num q => .num q
  | _ => .num 0

/-- The trailing window of width at most `w` ending at row `i`. -/
def windowSlice (l : List PFloat) (w i : ℕ) : List PFloat :=
  (l.take (i + 1)).drop (i + 1 - w)

/-- The same trailing window on a plain rational series. -/
def windowVals (w : ℕ) (vols : List ℚ) (i : ℕ) : List ℚ :=
  (vols.take (i + 1)).drop (i + 1 - w)

/-- Arithmetic mean of a rational list. -/
def qListMean (l : List ℚ) : ℚ :=
  l.sum / l.length

/-- The finite payload of a cell, if any. -/
def PFloat.toQ? : PFloat → Option ℚ
  | .num q => some q
  | _ => none

/-- `Series.rolling(window=w, min_periods=minp).mean()` at row `i`: NaN when
fewer than `minp` non-NaN observations fall in the trailing window, else the
mean of the non-NaN observations (±inf participates, as in numpy). -/
def rollingMean (w minp : ℕ) (l : List PFloat) (i : ℕ) : PFloat :=
  let vals := (windowSlice l w i).filter (fun c => c ≠ .nan)
  if vals.length < minp then .nan
  else (vals.foldl PFloat.add (.num 0)).div (.num vals.length)

/-- Sample variance (`ddof = 1`) of a rational list. -/
def sampleVarQ (vs : List ℚ) : ℚ :=
  let n : ℚ := vs.length
  let m := vs.sum / n
  ((vs.map (fun x => (x - m) ^ 2)).sum) / (n - 1)

/-- `Series.rolling(window=w, min_periods=minp).std()` at row `i`: NaN when
fewer than `minp` non-NaN observations fall in the window, NaN with a single
observation (`ddof = 1`), NaN when an infinity is present, else the sample
standard deviation.  The square root leaves ℚ, so it is taken through the
abstract function `sqrtQ`; no claim depends on its values. -/
def rollingStd (sqrtQ : ℚ → ℚ) (w minp : ℕ) (l : List PFloat) (i : ℕ) : PFloat :=
  let vals := (windowSlice l w i).filter (fun c => c ≠ .nan)
  if vals.length < minp then .nan
  else if vals.length < 2 then .nan
  else if vals.any (fun c => c == .inf || c == .ninf) then .nan
  else .num (sqrtQ (sampleVarQ (vals.filterMap PFloat.toQ?)))

/-- `df['Volume'].rolling(window=VOL_Z_WINDOW).mean()` of
stock_engine.py line 145: window 20, default `min_periods` (= 20). -/
def desktopVolMean (l : List PFloat) (i : ℕ) : PFloat :=
  rollingMean 20 20 l i

/-- `df['Volume'].rolling(window=VOL_Z_WINDOW).std()` of
stock_engine.py line 146: window 20, default `min_periods` (= 20). -/
def desktopVolStd (sqrtQ : ℚ → ℚ) (l : List PFloat) (i : ℕ) : PFloat :=
  rollingStd sqrtQ 20 20 l i

/-- `volume.rolling(window=60, min_periods=1).mean()` of
data_fetcher.py lines 209, 223. -/
def mobileVolMean (l : List PFloat) (i : ℕ) : PFloat :=
  rollingMean 60 1 l i

/-- `volume.rolling(window=60, min_periods=1).std()` of
data_fetcher.py lines 223-224. -/
def mobileVolStd (sqrtQ : ℚ → ℚ) (l : List PFloat) (i : ℕ) : PFloat :=
  rollingStd sqrtQ 60 1 l i

/-- Forward-fill of a cell list (`fill_method='pad'` of `pct_change`):
NaN cells take the previous non-NaN value, leading NaNs stay NaN. -/
def ffillGo : PFloat → List PFloat → List PFloat
  | _, [] => []
  | last, c :: rest =>
    let c' := if c = .nan then last else c
    c' :: ffillGo c' rest

/-- `df['Close'].pct_change()` at row `i` on the padded close column:
`close[i] / close[i-1] - 1`, NaN at row 0. -/
def pctChangeAt (padded : List PFloat) (i : ℕ) : PFloat :=
  match i with
  | 0 => .nan
  | j + 1 => ((padded.getD (j + 1) .nan).div (padded.getD j .nan)).sub (.num 1)

/-- An OHLCV row of cells (after `pd.to_numeric(..., errors='coerce')`:
non-numeric raw cells are already NaN). -/
structure OhlcvRow where
  op : PFloat
  hi : PFloat
  lo : PFloat
  cl : PFloat
  vol : PFloat
deriving DecidableEq

/-- An output row of `StockEngine.calculate_features`: the coerced OHLCV
columns plus `Vol_Z`, `Elasticity`, `day_of_week`, `hour_of_day`. -/
structure FeatRow where
  op : PFloat
  hi : PFloat
  lo : PFloat
  cl : PFloat
  vol : PFloat
  volZ : PFloat
  elasticity : PFloat
  dayOfWeek : PFloat
  hourOfDay : PFloat
deriving DecidableEq

/-- Day of week of a timestamp modelled as whole hours since an epoch that
fell on a Thursday (weekday 3). -/
def dowZ (t : ℤ) : ℤ :=
  (Int.fdiv t 24 + 3) % 7

/-- Hour of day of a timestamp in whole hours. -/
def hodZ (t : ℤ) : ℤ :=
  t % 24

/-- `StockEngine.calculate_features` (stock_engine.py lines 139-154):
per-row volume z-score from the 20-window rolling mean and zero-replaced
rolling std, elasticity as `pct_change` divided by the zero-replaced
z-score, calendar columns from the index, and a final
`replace([inf, -inf], 0).fillna(0)` over every cell.  Empty input yields
empty output. -/
def calculateFeatures (sqrtQ : ℚ → ℚ) (df : List (ℤ × OhlcvRow)) : List (ℤ × FeatRow) :=
  let vols := df.map (fun p => p.2.vol)
  let closes := df.map (fun p => p.2.cl)
  let padded := ffillGo .nan closes
  (List.range df.length).filterMap (fun i =>
    (df.get? i).map (fun p =>
      let vmean := desktopVolMean vols i
      let vstd := replaceVal 0 1 (desktopVolStd sqrtQ vols i)
      let vz := (p.2.vol.sub vmean).div vstd
      let vzsafe := replaceVal 0 1 vz
      let el := (pctChangeAt padded i).div vzsafe
      (p.1,
        { op := sanitize p.2.op
          hi := sanitize p.2.hi
          lo := sanitize p.2.lo
          cl := sanitize p.2.cl
          vol := sanitize p.2.vol
          volZ := sanitize vz
          elasticity := sanitize el
          dayOfWeek := sanitize (.num (dowZ p.1))
          hourOfDay := sanitize (.num (hodZ p.1)) })))

/-- A lower-frequency feature series as `_merge_timeframes` sees it: whether
the `Vol_Z` column exists, and the time-indexed column values (finite, as
produced by the sanitizing feature builder). -/
structure LowTf where
  hasVolZ : Bool
  series : List (ℤ × ℚ)

/-- `reindex(df.index, method='ffill')` at one target timestamp on a
time-sorted source: the value carried from the greatest source timestamp at
or before `t`, `none` before the first source timestamp. -/
def ffillLookup (src : List (ℤ × ℚ)) (t : ℤ) : Option ℚ :=
  ((src.filter (fun p => p.1 ≤ t)).getLast?).map Prod.snd

/-- One merged lower-frequency column value of `_merge_timeframes`
(stock_engine.py lines 158-163): forward-fill then `fillna(0)` when the
series is non-empty and has the column, constant 0 otherwise. -/
def mergeColumnAt (d : LowTf) (t : ℤ) : ℚ :=
  if d.hasVolZ = true ∧ d.series ≠ [] then (ffillLookup d.series t).getD 0 else 0

/-- `StockEngine._merge_timeframes` (stock_engine.py lines 156-164): the
1H table keeps its index and payload and gains the `Vol_Z_1D` and `Vol_Z_4H`
columns aligned by forward-fill. -/
def mergeTimeframes {α : Type} (oneH : List (ℤ × α)) (d1 d4 : LowTf) :
    List (ℤ × α × ℚ × ℚ) :=
  oneH.map (fun p => (p.1, p.2, mergeColumnAt d1 p.1, mergeColumnAt d4 p.1))

/-- A row of the aligned table entering `_create_targets`: the Close cell
and the remaining feature cells, `none` modelling NaN. -/
structure TRow where
  close : Option ℚ
  feats : List (Option ℚ)
deriving DecidableEq

/-- A row free of NaN (what `dropna` keeps). -/
def TRow.clean (r : TRow) : Bool :=
  r.close.isSome && r.feats.all Option.isSome

/-- One target cell of `_create_targets` (stock_engine.py line 211):
`(Close.shift(-lookahead) > Close * (1 + thresh)).astype(int)` at row `i` —
a NaN on either side compares as False, hence 0. -/
def targetLabel (closes : List (Option ℚ)) (lookahead : ℕ) (thresh : ℚ) (i : ℕ) : ℕ :=
  match (closes.get? (i + lookahead)).bind id, (closes.get? i).bind id with
  | some fut, some cur => if cur * (1 + thresh) < fut then 1 else 0
  | _, _ => 0

/-- `StockEngine._create_targets` (stock_engine.py lines 207-212): append
the integer targets `T_4H` (lookahead 4, threshold 1.5%), `T_2D`
(lookahead 14, threshold 3%), `T_5D` (lookahead 35, threshold 5%), then
`dropna()` — which can only drop on NaN in the ORIGINAL columns, the targets
being integers. -/
def createTargets (rows : List TRow) : List (TRow × ℕ × ℕ × ℕ) :=
  let closes := rows.map TRow.close
  (rows.enum.map (fun p =>
    (p.2, targetLabel closes 4 (15 / 1000) p.1,
      targetLabel closes 14 (30 / 1000) p.1,
      targetLabel closes 35 (50 / 1000) p.1))).filter
    (fun r => r.1.clean)

/-- The feature dictionary built by `DataFetcher._calculate_features`
(data_fetcher.py lines 203-285), including the legacy copies and the raw
last OHLCV values. -/
structure MobFeatures where
  elasticity1H : PFloat
  volZ1H : PFloat
  volZ4H : PFloat
  volZ1D : PFloat
  dayOfWeek : PFloat
  hourOfDay : PFloat
  volZ : PFloat
  elasticity : PFloat
  op : PFloat
  hi : PFloat
  lo : PFloat
  cl : PFloat
  vol : PFloat
deriving DecidableEq

/-- The safe default dictionary returned when feature calculation raises
(data_fetcher.py lines 279-285). -/
def mobileDefault : MobFeatures :=
  { elasticity1H := .num 0, volZ1H := .num 0, volZ4H := .num 0, volZ1D := .num 0
    dayOfWeek := .num 0, hourOfDay := .num 0, volZ := .num 0, elasticity := .num 0
    op := .num 0, hi := .num 0, lo := .num 0, cl := .num 0, vol := .num 0 }

/-- Resample bucket anchor: timestamps (whole hours) are floored to a
multiple of the period. -/
def bucketKey (p t : ℤ) : ℤ :=
  Int.fdiv t p * p

/-- Groupby aggregation `first`: first non-NaN value, NaN if none. -/
def aggFirst (l : List PFloat) : PFloat :=
  match l.filter (fun c => c ≠ .nan) with
  | [] => .nan
  | c :: _ => c

/-- Groupby aggregation `last`: last non-NaN value, NaN if none. -/
def aggLast (l : List PFloat) : PFloat :=
  ((l.filter (fun c => c ≠ .nan)).getLast?).getD .nan

/-- Maximum of two non-NaN cells (`inf` dominant). -/
def pfMax : PFloat → PFloat → PFloat
  | .num a, .num b => .num (max a b)
  | .inf, _ => .inf
  | _, .inf => .inf
  | .ninf, b => b
  | a, .ninf => a
  | .nan, b => b
  | a, .nan => a

/-- Minimum of two non-NaN cells (`-inf` dominant). -/
def pfMin : PFloat → PFloat → PFloat
  | .num a, .num b => .num (min a b)
  | .ninf, _ => .ninf
  | _, .ninf => .ninf
  | .inf, b => b
  | a, .inf => a
  | .nan, b => b
  | a, .nan => a

/-- Groupby aggregation `max` over non-NaN values, NaN if none. -/
def aggMax (l : List PFloat) : PFloat :=
  match l.filter (fun c => c ≠ .nan) with
  | [] => .nan
  | c :: rest => rest.foldl pfMax c

/-- Groupby aggregation `min` over non-NaN values, NaN if none. -/
def aggMin (l : List PFloat) : PFloat :=
  match l.filter (fun c => c ≠ .nan) with
  | [] => .nan
  | c :: rest => rest.foldl pfMin c

/-- Groupby aggregation `sum` over non-NaN values (0 for an all-NaN group,
as in pandas). -/
def aggSum (l : List PFloat) : PFloat :=
  (l.filter (fun c => c ≠ .nan)).foldl PFloat.add (.num 0)

/-- `df.resample(p).agg({open: first, high: max, low: min, close: last,
volume: sum})` restricted to non-empty buckets (empty buckets, which the
source's subsequent `dropna()` removes, are never produced).  Input
timestamps are assumed ascending, as everywhere in the pipeline. -/
def resampleP (p : ℤ) (df : List (ℤ × OhlcvRow)) : List (ℤ × OhlcvRow) :=
  let keys := (df.map (fun r => bucketKey p r.1)).eraseDups
  keys.map (fun k =>
    let grp := df.filter (fun r => bucketKey p r.1 = k)
    (k,
      { op := aggFirst (grp.map (fun r => r.2.op))
        hi := aggMax (grp.map (fun r => r.2.hi))
        lo := aggMin (grp.map (fun r => r.2.lo))
        cl := aggLast (grp.map (fun r => r.2.cl))
        vol := aggSum (grp.map (fun r => r.2.vol)) }))

/-- The `dropna()` after resampling: drop rows with any NaN aggregate. -/
def dropnaRows (l : List (ℤ × OhlcvRow)) : List (ℤ × OhlcvRow) :=
  l.filter (fun r =>
    !(r.2.op == PFloat.nan) && !(r.2.hi == PFloat.nan) && !(r.2.lo == PFloat.nan)
      && !(r.2.cl == PFloat.nan) && !(r.2.vol == PFloat.nan))

/-- The last value of the mobile volume z-score column
(data_fetcher.py lines 222-227): rolling window 60 with `min_periods=1`,
std NaN-filled to 1 then zero-replaced to 1, z = (volume − mean) / std. -/
def mobileVolZlast (sqrtQ : ℚ → ℚ) (vols : List PFloat) : PFloat :=
  let i := vols.length - 1
  let m := mobileVolMean vols i
  let s := replaceVal 0 1 (fillna 1 (mobileVolStd sqrtQ vols i))
  ((vols.getD i .nan).sub m).div s

/-- `DataFetcher._calculate_features` (data_fetcher.py lines 203-285):
elasticity `(high - low) / close` of the last row, 1H/4H/1D volume z-scores
(the latter two over the resampled series, 0 when the resample is empty),
calendar features of the last timestamp, plus legacy copies and the raw last
OHLCV values.  An empty frame raises at `df.index[-1]` and the handler
returns the safe default dictionary. -/
def mobileFeatures (sqrtQ : ℚ → ℚ) (df : List (ℤ × OhlcvRow)) : MobFeatures :=
  match df.getLast? with
  | none => mobileDefault
  | some lastRow =>
    let el := (lastRow.2.hi.sub lastRow.2.lo).div lastRow.2.cl
    let z1 := mobileVolZlast sqrtQ (df.map (fun r => r.2.vol))
    let d4 := dropnaRows (resampleP 4 df)
    let z4 := match d4 with
      | [] => PFloat.num 0
      | _ => mobileVolZlast sqrtQ (d4.map (fun r => r.2.vol))
    let d1 := dropnaRows (resampleP 24 df)
    let zd := match d1 with
      | [] => PFloat.num 0
      | _ => mobileVolZlast sqrtQ (d1.map (fun r => r.2.vol))
    { elasticity1H := el
      volZ1H := z1
      volZ4H := z4
      volZ1D := zd
      dayOfWeek := .num (dowZ lastRow.1)
      hourOfDay := .num (hodZ lastRow.1)
      volZ := z1
      elasticity := el
      op := lastRow.2.op
      hi := lastRow.2.hi
      lo := lastRow.2.lo
      cl := lastRow.2.cl
      vol := lastRow.2.vol }

/-- A trivial instantiation of the abstract square root, used to evaluate
the pipeline on concrete inputs where the claims do not depend on the square
root's values. -/
def sqrtZero : ℚ → ℚ := fun _ => 0

/-- Every cell of a desktop feature row is finite. -/
def FeatRow.allFinite (f : FeatRow) : Bool :=
  f.op.isFinite && f.hi.isFinite && f.lo.isFinite && f.cl.isFinite && f.vol.isFinite
    && f.volZ.isFinite && f.elasticity.isFinite && f.dayOfWeek.isFinite
    && f.hourOfDay.isFinite

/-- Every value of the mobile feature dictionary is finite. -/
def MobFeatures.allFinite (f : MobFeatures) : Bool :=
  f.elasticity1H.isFinite && f.volZ1H.isFinite && f.volZ4H.isFinite
    && f.volZ1D.isFinite && f.dayOfWeek.isFinite && f.hourOfDay.isFinite
    && f.volZ.isFinite && f.elasticity.isFinite && f.op.isFinite && f.hi.isFinite
    && f.lo.isFinite && f.cl.isFinite && f.vol.isFinite

/-- A valid input bar for the on-device feature builder: finite OHLV cells
and a finite strictly positive close (Bars carry positive closes per the
data model). -/
def validBar (r : OhlcvRow) : Bool :=
  r.op.isFinite && r.hi.isFinite && r.lo.isFinite && r.vol.isFinite &&
    (match r.cl with
      | .num q => decide (0 < q)
      | _ => false)

/-- The specification's reading of one label: the lookahead close exists and
strictly exceeds the current close scaled by one plus the threshold. -/
def labelSpecHolds (rows : List TRow) (i L : ℕ) (t : ℚ) : Prop :=
  ∃ cur fut, (rows.get? i).bind TRow.close = some cur ∧
    (rows.get? (i + L)).bind TRow.close = some fut ∧ cur * (1 + t) < fut

/-- The aligned table of the specification's label test: Close column
`[100, 100, 100, 100, 106]`, no other feature columns, no NaN. -/
def exRowsC2 : List TRow :=
  [⟨some 100, []⟩, ⟨some 100, []⟩, ⟨some 100, []⟩, ⟨some 100, []⟩, ⟨some 106, []⟩]

/-- Example 1H table for C6: three timestamps with a constant payload. -/
def exOneHC6 : List (ℤ × ℚ) :=
  [(0, 37), (5, 37), (10, 37)]

/-- Example empty 1D series lacking the `Vol_Z` column. -/
def exD1C6 : LowTf :=
  ⟨false, []⟩

/-- Example 4H series with two known values. -/
def exD4C6 : LowTf :=
  ⟨true, [(4, 7), (8, 9)]⟩

/-- Two 1H bars with equal closes but a wide high-low range on the second
bar: the training-side elasticity (previous-close return over volume
z-score) is 0 there, while the on-device formula `(high-low)/close`
gives 1/5. -/
def exBarsC10 : List (ℤ × OhlcvRow) :=
  [(0, ⟨.num 100, .num 100, .num 100, .num 100, .num 1000⟩),
   (1, ⟨.num 100, .num 110, .num 90, .num 100, .num 1000⟩)]

end TradingAlert

namespace TradingAlert

theorem pyGet?_ofNat {α : Type} (l : List α) (n : ℕ) :
    pyGet? l (n : ℤ) = l.get? n := by
  simp [pyGet?]

theorem leafFlags_get? (t : XGBoostTree) (n : ℕ) :
    t.leafFlags.get? n = (t.left_children.get? n).map (fun l => l == -1) := by
  simp [XGBoostTree.leafFlags]

/-- A traversal described by the specification relation is reproduced by the
source loop whenever the fuel exceeds the number of steps taken. -/
theorem predictLoop_of_reachesIn (t : XGBoostTree) (f : List ℚ) :
    ∀ (n k : ℕ) (w : ℚ), ReachesIn t f n k w →
      ∀ fuel : ℕ, k < fuel → predictLoop t f (n : ℤ) fuel = .val w := by
  intro n k w h
  induction h with
  | leaf n w hleft hw =>
    intro fuel hfuel
    obtain ⟨fuel, rfl⟩ : ∃ m, fuel = m + 1 := ⟨fuel - 1, by omega⟩
    have hflag : pyGet? t.leafFlags (n : ℤ) = some true := by
      rw [pyGet?_ofNat, leafFlags_get?, hleft]
      simp
    have hwn : pyGet? t.base_weights (n : ℤ) = some w := by
      rw [pyGet?_ofNat, hw]
    simp [predictLoop, hflag, hwn]
  | inner n k w l r fi c v child hleft hlne hright hfi hc hfi0 hfilt hv hchild hch0 hchlt
      _hrec ih =>
    intro fuel hfuel
    obtain ⟨fuel, rfl⟩ : ∃ m, fuel = m + 1 := ⟨fuel - 1, by omega⟩
    have hflag : pyGet? t.leafFlags (n : ℤ) = some false := by
      rw [pyGet?_ofNat, leafFlags_get?, hleft]
      simp [hlne]
    have hfin : pyGet? t.split_indices (n : ℤ) = some fi := by
      rw [pyGet?_ofNat, hfi]
    have hcn : pyGet? t.split_conditions (n : ℤ) = some c := by
      rw [pyGet?_ofNat, hc]
    have hnotoob : ¬ ((f.length : ℤ) ≤ fi) := by
      have : fi = (fi.toNat : ℤ) := (Int.toNat_of_nonneg hfi0).symm
      omega
    have hfv : pyGet? f fi = some v := by
      have : fi = (fi.toNat : ℤ) := (Int.toNat_of_nonneg hfi0).symm
      rw [this, pyGet?_ofNat, hv]
    have hchildget :
        pyGet? (if v < c then t.left_children else t.right_children) (n : ℤ) = some child := by
      by_cases hvc : v < c
      · rw [if_pos hvc, pyGet?_ofNat, hleft, hchild, if_pos hvc]
      · rw [if_neg hvc, pyGet?_ofNat, hright, hchild, if_neg hvc]
    have hinrange : ¬ (child < 0 ∨ (t.leafFlags.length : ℤ) ≤ child) := by
      have hlen : t.leafFlags.length = t.left_children.length := by
        simp [XGBoostTree.leafFlags]
      have : child = (child.toNat : ℤ) := (Int.toNat_of_nonneg hch0).symm
      omega
    have hrecurse := ih fuel (by omega)
    have hcast : ((child.toNat : ℤ)) = child := Int.toNat_of_nonneg hch0
    rw [hcast] at hrecurse
    simp only [predictLoop, hflag, hfin, hcn, if_neg hnotoob, hfv, hchildget,
      if_neg hinrange]
    exact hrecurse

/-- When every tree of the ensemble returns a plain value, `predict_raw`
accumulates the base score plus their sum. -/
theorem predict_raw_of_values (f : List ℚ) :
    ∀ (trees : List XGBoostTree) (ws : List ℚ),
      List.Forall₂ (fun (t : XGBoostTree) (w : ℚ) => t.predict f = .val w) trees ws →
      ∀ s : ℚ,
        trees.foldl (rawStep f) (.val s) = .val (s + ws.sum) := by
  intro trees ws h
  induction h with
  | nil => intro s; simp
  | @cons t w trees' ws' hhead _htail ih =>
    intro s
    simp only [List.foldl_cons, List.sum_cons]
    have hstep : rawStep f (.val s) t = .val (s + w) := by
      simp [rawStep, hhead]
    rw [hstep, ih]
    ring_nf

/-- C1: evaluation of a parsed ensemble returns the logistic function applied
to the base score plus the sum over trees of the reached leaf's weight, where
each tree is traversed from node 0 moving to the left child exactly when the
feature at the split index is strictly below the threshold; in particular the
hand-built single-tree ensemble (root split `feature[0] < 5.0`, leaf weights
−1 and +1, base score 0) yields `sigmoid (-1)` on `[3]` and `sigmoid 1`
on `[7]`. -/
theorem predict_proba_sigmoid_of_traversal :
    (∀ (m : XGBoostModel) (f : List ℚ) (ws : List ℚ),
        List.Forall₂
          (fun (t : XGBoostTree) (w : ℚ) =>
            ∃ k, k ≤ t.left_children.length ∧ ReachesIn t f 0 k w)
          m.trees ws →
        m.predict_proba f = some (sigmoid (m.base_score + ws.sum)))
    ∧ exModelC1.predict_proba [3] = some (sigmoid (-1))
    ∧ exModelC1.predict_proba [7] = some (sigmoid 1) := by
  refine ⟨?_, ?_, ?_⟩
  · intro m f ws h
    have hall : List.Forall₂
        (fun (t : XGBoostTree) (w : ℚ) => t.predict f = .val w) m.trees ws := by
      refine h.imp ?_
      rintro t w ⟨k, hk, hreach⟩
      have hrun := predictLoop_of_reachesIn t f 0 k w hreach
        (t.left_children.length + 1) (by omega)
      simpa [XGBoostTree.predict] using hrun
    have hraw : m.predict_raw f = .val (m.base_score + ws.sum) :=
      predict_raw_of_values f m.trees ws hall m.base_score
    simp [XGBoostModel.predict_proba, hraw]
  · have hpred : exTreeC1.predict [3] = .val (-1) := by decide
    have hraw := predict_raw_of_values [3] [exTreeC1] [-1]
      (List.Forall₂.cons hpred List.Forall₂.nil) 0
    have hrawm : exModelC1.predict_raw [3] = .val (-1) := by
      rw [show exModelC1.predict_raw [3] = [exTreeC1].foldl (rawStep [3]) (.val 0) from rfl,
        hraw]
      norm_num
    simp [XGBoostModel.predict_proba, hrawm]
  · have hpred : exTreeC1.predict [7] = .val 1 := by decide
    have hraw := predict_raw_of_values [7] [exTreeC1] [1]
      (List.Forall₂.cons hpred List.Forall₂.nil) 0
    have hrawm : exModelC1.predict_raw [7] = .val 1 := by
      rw [show exModelC1.predict_raw [7] = [exTreeC1].foldl (rawStep [7]) (.val 0) from rfl,
        hraw]
      norm_num
    simp [XGBoostModel.predict_proba, hrawm]

/-- Witness for C1 at the concrete single-tree ensemble and input `[3]`:
the traversal hypothesis is discharged with the explicit two-step path
root → left leaf. -/
theorem predict_proba_sigmoid_of_traversal_witness :
    exModelC1.predict_proba [3] = some (sigmoid (0 + List.sum [(-1 : ℚ)])) := by
  refine predict_proba_sigmoid_of_traversal.1 exModelC1 [3] [-1] ?_
  refine List.Forall₂.cons ⟨1, by decide, ?_⟩ List.Forall₂.nil
  refine ReachesIn.inner 0 0 (-1) 1 2 0 5 3 1 (by decide) (by decide) (by decide)
    (by decide) (by decide) (by decide) (by decide) (by decide) (by decide)
    (by decide) (by decide) ?_
  exact ReachesIn.leaf 1 (-1) (by decide) (by decide)

/-- Counterexample to C4 as stated: on `exTreeC4` with feature vector `[0]`
the destination child index 1 falls outside the node range 0..0, and the
evaluation raises IndexError (reading `base_weights[1]`) instead of returning
the last visited node's weight 7. -/
theorem oob_child_raises_counterexample :
    exTreeC4.predict [0] = .indexError ∧
      PredictResult.indexError ≠ PredictResult.val 7 := by
  exact ⟨by decide, by decide⟩

/-- C4 amended: when the destination child index `child` falls outside the
valid node range, the loop stops and returns `base_weights[child]` under
Python indexing — for negative `child` within reach of the array this is the
weight at position `length + child` (e.g. the last node's weight for
`child = -1`), not the last visited node's weight, and for `child` at or
beyond the weight-array length it raises IndexError rather than degrading
gracefully. -/
theorem oob_child_python_indexing
    (t : XGBoostTree) (f : List ℚ) (node child l r fi : ℤ) (c v : ℚ) (fuel : ℕ)
    (hflag : pyGet? t.leafFlags node = some false)
    (hfi : pyGet? t.split_indices node = some fi)
    (hc : pyGet? t.split_conditions node = some c)
    (hin : ¬ ((f.length : ℤ) ≤ fi))
    (hv : pyGet? f fi = some v)
    (hl : pyGet? t.left_children node = some l)
    (hr : pyGet? t.right_children node = some r)
    (hchild : child = (if v < c then l else r))
    (hoob : child < 0 ∨ (t.leafFlags.length : ℤ) ≤ child) :
    (∀ w : ℚ, child < 0 → (-child).toNat ≤ t.base_weights.length →
        t.base_weights.get? (t.base_weights.length - (-child).toNat) = some w →
        predictLoop t f node (fuel + 1) = .val w) ∧
    ((t.base_weights.length : ℤ) ≤ child →
        predictLoop t f node (fuel + 1) = .indexError) := by
  have hchildget :
      pyGet? (if v < c then t.left_children else t.right_children) node = some child := by
    by_cases hvc : v < c
    · rw [if_pos hvc, hl, hchild, if_pos hvc]
    · rw [if_neg hvc, hr, hchild, if_neg hvc]
  constructor
  · intro w hneg hreach hw
    have hbw : pyGet? t.base_weights child = some w := by
      rw [pyGet?, if_neg (by omega), if_pos hreach, hw]
    simp only [predictLoop, hflag, hfi, hc, if_neg hin, hv, hchildget,
      if_pos hoob, hbw]
  · intro hlen
    have hch0 : 0 ≤ child := le_trans (by positivity) hlen
    have hbw : pyGet? t.base_weights child = none := by
      rw [pyGet?, if_pos hch0]
      exact List.get?_eq_none.mpr (by omega)
    simp only [predictLoop, hflag, hfi, hc, if_neg hin, hv, hchildget,
      if_pos hoob, hbw]

/-- Witness for the amended C4 at `exTreeC4n` with input `[7]`: the right
child −1 makes the loop return `base_weights[-1] = 20`, the last array
element, although the last visited node's weight is 10. -/
theorem oob_child_python_indexing_witness :
    predictLoop exTreeC4n [7] 0 1 = PredictResult.val 20 := by
  exact (oob_child_python_indexing exTreeC4n [7] 0 (-1) 1 (-1) 0 5 7 0
    (by decide) (by decide) (by decide) (by decide) (by decide) (by decide)
    (by decide) (by decide) (by decide)).1 20 (by decide) (by decide) (by decide)

/-- C5: when the current internal node's split feature index is at or beyond
the length of the supplied feature vector, the traversal stops and returns
the current node's own weight instead of raising. -/
theorem oob_feature_index_returns_node_weight
    (t : XGBoostTree) (f : List ℚ) (node fi : ℤ) (c w : ℚ) (fuel : ℕ)
    (hflag : pyGet? t.leafFlags node = some false)
    (hfi : pyGet? t.split_indices node = some fi)
    (hc : pyGet? t.split_conditions node = some c)
    (hoob : (f.length : ℤ) ≤ fi)
    (hw : pyGet? t.base_weights node = some w) :
    predictLoop t f node (fuel + 1) = .val w := by
  simp only [predictLoop, hflag, hfi, hc, if_pos hoob, hw]

/-- Witness for C5: on `exTreeC5` with the empty feature vector, split index
9 is out of bounds and traversal returns the root's own weight 3. -/
theorem oob_feature_index_returns_node_weight_witness :
    predictLoop exTreeC5 [] 0 1 = PredictResult.val 3 := by
  exact oob_feature_index_returns_node_weight exTreeC5 [] 0 9 5 3 0
    (by decide) (by decide) (by decide) (by decide) (by decide)

/-- C3: the numeric-field coercion returns a plain rational and never raises:
native numbers coerce to themselves, numeric strings (including bracket- or
quote-wrapped ones) coerce to their parsed value, a tree whose
`split_conditions` holds the string "5.0" parses identically to one holding
the number 5.0, singleton lists coerce to the coercion of their first
element, and uncoercible values yield 0.0. -/
theorem safe_float_coercion :
    (∀ q : ℚ, safeFloat (.num q) = q)
    ∧ (∀ (s : String) (p : FloatLit), parseFloatLit (pyStrip s) = some p →
        safeFloat (.str s) = p.val)
    ∧ safeFloat (.str "5.0") = 5
    ∧ safeFloat (.str "[5.0]") = 5
    ∧ safeFloat (.str "\"5.0\"") = 5
    ∧ (∀ v : JsonVal, safeFloat (.arr [v]) = safeFloat v)
    ∧ safeFloat .null = 0
    ∧ safeFloat .obj = 0
    ∧ safeFloat (.arr []) = 0
    ∧ safeFloat (.str "abc") = 0
    ∧ (∀ (l r i : List ℤ) (w : List JsonVal),
        treeFromJson l r i [.str "5.0"] w = treeFromJson l r i [.num 5] w) := by
  have hstr : ∀ (s : String) (p : FloatLit), parseFloatLit (pyStrip s) = some p →
      safeFloat (.str s) = p.val := by
    intro s p h
    simp [safeFloat, parsePyFloat, h]
  have h50 : ∀ s : String, parseFloatLit (pyStrip s) = some ⟨false, 5, 0, 1, 0⟩ →
      safeFloat (.str s) = 5 := by
    intro s h
    rw [hstr s _ h]
    norm_num [FloatLit.val]
  refine ⟨fun q => rfl, hstr, h50 _ (by decide), h50 _ (by decide), h50 _ (by decide),
    fun v => by simp [safeFloat], rfl, rfl, rfl, ?_, ?_⟩
  · have : parseFloatLit (pyStrip "abc") = none := by decide
    simp [safeFloat, parsePyFloat, this]
  · intro l r i w
    have e1 : safeFloat (.str "5.0") = 5 := h50 "5.0" (by decide)
    have e2 : safeFloat (.num 5) = 5 := rfl
    simp [treeFromJson, e1, e2]

/-- Witness for C3's string-coercion component at the quote-wrapped
string " '5' ". -/
theorem safe_float_coercion_witness :
    safeFloat (.str " '5' ") = FloatLit.val ⟨false, 5, 0, 0, 0⟩ := by
  exact safe_float_coercion.2.1 " '5' " ⟨false, 5, 0, 0, 0⟩ (by decide)

/-- C9: whenever every loaded model evaluates without raising, multi-horizon
prediction returns a map with exactly the keys 4H, 2D, 5D in which a horizon
with a loaded model carries its probability times 100 rounded to one
decimal, and a horizon without a model carries 0.0 instead of failing the
whole request. -/
theorem inference_horizon_map (models : String → Option XGBoostModel)
    (order : List String) (features : List (String × ℚ))
    (hok : ∀ h, h ∈ HORIZONS → ∀ m, models h = some m →
      ∃ p, m.predict_proba (buildFeatureList order features) = some p) :
    ∃ l, inferencePredict models order features = some l ∧
      l.map Prod.fst = ["4H", "2D", "5D"] ∧
      (∀ h, h ∈ HORIZONS → models h = none → (h, (0 : ℝ)) ∈ l) ∧
      (∀ h m p, h ∈ HORIZONS → models h = some m →
        m.predict_proba (buildFeatureList order features) = some p →
        (h, pyRound1 (p * 100)) ∈ l) := by
  have hF : ∀ h, h ∈ HORIZONS → ∃ v : String × ℝ,
      horizonEntry models order features h = some v
      ∧ v.1 = h
      ∧ (models h = none → v = (h, 0))
      ∧ (∀ m p, models h = some m →
          m.predict_proba (buildFeatureList order features) = some p →
          v = (h, pyRound1 (p * 100))) := by
    intro h hh
    cases hm : models h with
    | none =>
      refine ⟨(h, 0), by simp [horizonEntry, hm], rfl, fun _ => rfl, ?_⟩
      intro m p hm' _
      cases hm'
    | some m =>
      obtain ⟨p, hp⟩ := hok h hh m hm
      refine ⟨(h, pyRound1 (p * 100)), by simp [horizonEntry, hm, hp], rfl, ?_, ?_⟩
      · intro h0
        cases h0
      · intro m' p' hm' hp'
        cases hm'
        rw [hp] at hp'
        cases hp'
        rfl
  obtain ⟨v4, hF4, hfst4, hnone4, hsome4⟩ := hF "4H" (by simp [HORIZONS])
  obtain ⟨v2, hF2, hfst2, hnone2, hsome2⟩ := hF "2D" (by simp [HORIZONS])
  obtain ⟨v5, hF5, hfst5, hnone5, hsome5⟩ := hF "5D" (by simp [HORIZONS])
  refine ⟨[v4, v2, v5], ?_, ?_, ?_, ?_⟩
  · simp [inferencePredict, HORIZONS, List.mapM, List.mapM.loop, hF4, hF2, hF5]
  · simp [hfst4, hfst2, hfst5]
  · intro h hh hnone
    simp only [HORIZONS, List.mem_cons, List.not_mem_nil, or_false] at hh
    rcases hh with rfl | rfl | rfl
    · simp [hnone4 hnone]
    · simp [hnone2 hnone]
    · simp [hnone5 hnone]
  · intro h m p hh hm hp
    simp only [HORIZONS, List.mem_cons, List.not_mem_nil, or_false] at hh
    rcases hh with rfl | rfl | rfl
    · simp [hsome4 m p hm hp]
    · simp [hsome2 m p hm hp]
    · simp [hsome5 m p hm hp]

/-- Witness for C9 with only a 4H model loaded (the single-tree example
ensemble) and an empty feature dictionary. -/
theorem inference_horizon_map_witness :
    ∃ l, inferencePredict exModelsC9 legacyFeatureOrder [] = some l ∧
      l.map Prod.fst = ["4H", "2D", "5D"] ∧
      (∀ h, h ∈ HORIZONS → exModelsC9 h = none → (h, (0 : ℝ)) ∈ l) ∧
      (∀ h m p, h ∈ HORIZONS → exModelsC9 h = some m →
        m.predict_proba (buildFeatureList legacyFeatureOrder []) = some p →
        (h, pyRound1 (p * 100)) ∈ l) := by
  refine inference_horizon_map exModelsC9 legacyFeatureOrder [] ?_
  intro h _hh m hm
  have hh4 : h = "4H" ∧ m = exModelC1 := by
    by_cases h4 : h = "4H"
    · refine ⟨h4, ?_⟩
      rw [show exModelsC9 h = some exModelC1 by simp [exModelsC9, h4]] at hm
      cases hm
      rfl
    · rw [show exModelsC9 h = none by simp [exModelsC9, h4]] at hm
      cases hm
  obtain ⟨rfl, rfl⟩ := hh4
  have hlist : buildFeatureList legacyFeatureOrder [] = [0, 0, 0, 0] := by decide
  have hpred : exTreeC1.predict [0, 0, 0, 0] = .val (-1) := by decide
  have hraw := predict_raw_of_values [0, 0, 0, 0] [exTreeC1] [-1]
    (List.Forall₂.cons hpred List.Forall₂.nil) 0
  have hrawm : exModelC1.predict_raw [0, 0, 0, 0] = .val (-1) := by
    rw [show exModelC1.predict_raw [0, 0, 0, 0]
        = [exTreeC1].foldl (rawStep [0, 0, 0, 0]) (.val 0) from rfl, hraw]
    norm_num
  refine ⟨sigmoid (-1), ?_⟩
  rw [hlist]
  simp [XGBoostModel.predict_proba, hrawm]

theorem targetLabel_eq_one_iff (closes : List (Option ℚ)) (L : ℕ) (t : ℚ) (i : ℕ) :
    targetLabel closes L t i = 1 ↔
      ∃ cur fut, (closes.get? i).bind id = some cur ∧
        (closes.get? (i + L)).bind id = some fut ∧ cur * (1 + t) < fut := by
  unfold targetLabel
  cases hfut : (closes.get? (i + L)).bind id with
  | none =>
    simp only [hfut]
    constructor
    · intro hc
      cases hc
    · rintro ⟨cur, fut, _, hfut', _⟩
      cases hfut'
  | some fut =>
    cases hcur : (closes.get? i).bind id with
    | none =>
      simp only [hfut, hcur]
      constructor
      · intro hc
        cases hc
      · rintro ⟨cur, fut', hcur', _, _⟩
        cases hcur'
    | some cur =>
      simp only [hfut, hcur]
      by_cases hlt : cur * (1 + t) < fut
      · simp only [if_pos hlt]
        exact ⟨fun _ => ⟨cur, fut, rfl, rfl, hlt⟩, fun _ => trivial⟩
      · simp only [if_neg hlt]
        constructor
        · intro hc
          cases hc
        · rintro ⟨cur', fut', hcur', hfut', hlt'⟩
          cases hcur'
          cases hfut'
          exact absurd hlt' hlt

theorem targetLabel_zero_or_one (closes : List (Option ℚ)) (L : ℕ) (t : ℚ) (i : ℕ) :
    targetLabel closes L t i = 0 ∨ targetLabel closes L t i = 1 := by
  unfold targetLabel
  cases (closes.get? (i + L)).bind id with
  | none => exact Or.inl rfl
  | some fut =>
    cases (closes.get? i).bind id with
    | none => exact Or.inl rfl
    | some cur =>
      by_cases hlt : cur * (1 + t) < fut
      · exact Or.inr (by simp [hlt])
      · exact Or.inl (by simp [hlt])

theorem createTargets_eq_of_clean (rows : List TRow) (h : ∀ r ∈ rows, r.clean = true) :
    createTargets rows = rows.enum.map (fun p =>
      (p.2, targetLabel (rows.map TRow.close) 4 (15 / 1000) p.1,
        targetLabel (rows.map TRow.close) 14 (30 / 1000) p.1,
        targetLabel (rows.map TRow.close) 35 (50 / 1000) p.1)) := by
  unfold createTargets
  apply List.filter_eq_self.mpr
  intro a ha
  simp only [List.mem_map] at ha
  obtain ⟨p, hp, rfl⟩ := ha
  have hget : rows.get? p.1 = some p.2 := by
    have := List.mem_enum_iff_get?.mp hp
    exact this
  exact h p.2 (List.get?_mem hget)

theorem mapClose_bind (rows : List TRow) (j : ℕ) :
    ((rows.map TRow.close).get? j).bind id = (rows.get? j).bind TRow.close := by
  rw [List.get?_map]
  cases rows.get? j <;> rfl

/-- C2 corrected: on a NaN-free aligned table `_create_targets` retains all
N rows: rows whose lookahead index exceeds the table bound receive label 0
(the NaN comparison is False before the integer cast) instead of being
dropped, and a label is 1 exactly when the lookahead close exists and
strictly exceeds the current close scaled by one plus the threshold. -/
theorem create_targets_labels (rows : List TRow) (h : ∀ r ∈ rows, r.clean = true) :
    (createTargets rows).length = rows.length ∧
    (∀ i r l4 l2 l5, (createTargets rows).get? i = some (r, l4, l2, l5) →
      rows.get? i = some r ∧
      (l4 = 1 ↔ labelSpecHolds rows i 4 (15 / 1000)) ∧
      (l2 = 1 ↔ labelSpecHolds rows i 14 (30 / 1000)) ∧
      (l5 = 1 ↔ labelSpecHolds rows i 35 (50 / 1000)) ∧
      (l4 = 0 ∨ l4 = 1) ∧ (l2 = 0 ∨ l2 = 1) ∧ (l5 = 0 ∨ l5 = 1)) := by
  rw [createTargets_eq_of_clean rows h]
  constructor
  · rw [List.length_map, List.enum_length]
  · intro i r l4 l2 l5 hi
    rw [List.get?_map, List.get?_enum] at hi
    cases hrow : rows.get? i with
    | none => rw [hrow] at hi; cases hi
    | some r' =>
      rw [hrow] at hi
      simp only [Option.map_some'] at hi
      cases hi
      refine ⟨rfl, ?_, ?_, ?_, targetLabel_zero_or_one _ _ _ _,
        targetLabel_zero_or_one _ _ _ _, targetLabel_zero_or_one _ _ _ _⟩
      · rw [targetLabel_eq_one_iff]
        unfold labelSpecHolds
        rw [mapClose_bind, mapClose_bind]
      · rw [targetLabel_eq_one_iff]
        unfold labelSpecHolds
        rw [mapClose_bind, mapClose_bind]
      · rw [targetLabel_eq_one_iff]
        unfold labelSpecHolds
        rw [mapClose_bind, mapClose_bind]

/-- Witness for the corrected C2 on the specification's 5-row table. -/
theorem create_targets_labels_witness :
    (createTargets exRowsC2).length = exRowsC2.length := by
  exact (create_targets_labels exRowsC2 (by decide)).1

/-- Counterexample to C2 as stated: the 5-row table with lookahead 4 keeps
all 5 rows (the claim demands exactly 5 − 4 = 1 labeled row), while the
in-bounds row 0 is labeled 1 as the claim's formula prescribes. -/
theorem create_targets_no_drop_counterexample :
    (createTargets exRowsC2).length = 5 ∧
    ¬ ((createTargets exRowsC2).length = exRowsC2.length - 4) ∧
    ((createTargets exRowsC2).get? 0).map (fun x => x.2.1) = some 1 := by
  have hclean : ∀ r ∈ exRowsC2, r.clean = true := by decide
  have heq := createTargets_eq_of_clean exRowsC2 hclean
  have hlen : (createTargets exRowsC2).length = 5 := by
    rw [heq, List.length_map, List.enum_length]
    decide
  refine ⟨hlen, ?_, ?_⟩
  · rw [hlen]
    decide
  · rw [heq, List.get?_map, List.get?_enum]
    have h0 : exRowsC2.get? 0 = some ⟨some 100, []⟩ := by decide
    rw [h0]
    simp only [Option.map_some']
    have hlbl : targetLabel (exRowsC2.map TRow.close) 4 (15 / 1000) 0 = 1 := by
      rw [targetLabel_eq_one_iff]
      refine ⟨100, 106, by decide, by decide, by norm_num⟩
    rw [hlbl]

theorem getLast?_of_maxKey {α : Type} (key : α → ℤ) :
    ∀ (l : List α) (x : α), List.Pairwise (fun a b => key a < key b) l → x ∈ l →
      (∀ y ∈ l, key y ≤ key x) → l.getLast? = some x := by
  intro l
  induction l with
  | nil => intro x _ hx _; cases hx
  | cons a l ih =>
    intro x hp hx hmax
    obtain ⟨hal, hpl⟩ := List.pairwise_cons.mp hp
    cases l with
    | nil =>
      have hxa : x = a := by simpa using hx
      subst hxa
      rfl
    | cons b l' =>
      have hx' : x ∈ b :: l' := by
        rw [List.mem_cons] at hx
        rcases hx with rfl | hx'
        · have h1 := hmax b (by simp)
          have h2 := hal b (by simp)
          omega
        · assumption
      rw [List.getLast?_cons_cons]
      exact ih x hpl hx' (fun y hy => hmax y (by simp [hy]))

theorem ffillLookup_eq_max (src : List (ℤ × ℚ))
    (hs : List.Pairwise (fun p q => p.1 < q.1) src)
    (t s : ℤ) (v : ℚ) (hmem : (s, v) ∈ src) (hle : s ≤ t)
    (hmax : ∀ s' v', (s', v') ∈ src → s' ≤ t → s' ≤ s) :
    ffillLookup src t = some v := by
  unfold ffillLookup
  have hfmem : (s, v) ∈ src.filter (fun p => p.1 ≤ t) := by
    rw [List.mem_filter]
    exact ⟨hmem, by simpa using hle⟩
  have hfsorted : List.Pairwise (fun p q : ℤ × ℚ => p.1 < q.1)
      (src.filter (fun p => p.1 ≤ t)) :=
    hs.filter _
  have hlast : (src.filter (fun p => p.1 ≤ t)).getLast? = some (s, v) := by
    refine getLast?_of_maxKey Prod.fst _ (s, v) hfsorted hfmem ?_
    intro y hy
    rw [List.mem_filter] at hy
    exact hmax y.1 y.2 (by simpa using hy.1) (by simpa using hy.2)
  rw [hlast]
  rfl

/-- C6: the merged table keeps exactly the 1H timestamps and payloads; each
lower-frequency column carries, at every 1H timestamp, the most recent known
value at or before it, 0 at timestamps before the first known value, and 0
throughout when the series is empty or lacks the `Vol_Z` column. -/
theorem merge_timeframes_ffill {α : Type} (oneH : List (ℤ × α)) (d1 d4 : LowTf)
    (hs1 : List.Pairwise (fun p q => p.1 < q.1) d1.series)
    (hs4 : List.Pairwise (fun p q => p.1 < q.1) d4.series) :
    (mergeTimeframes oneH d1 d4).length = oneH.length ∧
    (mergeTimeframes oneH d1 d4).map (fun r => (r.1, r.2.1)) = oneH ∧
    (∀ t a z1 z4, (t, a, z1, z4) ∈ mergeTimeframes oneH d1 d4 →
      ((d1.hasVolZ = false ∨ d1.series = []) → z1 = 0) ∧
      (d1.hasVolZ = true → ∀ s v, (s, v) ∈ d1.series → s ≤ t →
        (∀ s' v', (s', v') ∈ d1.series → s' ≤ t → s' ≤ s) → z1 = v) ∧
      ((∀ s v, (s, v) ∈ d1.series → t < s) → z1 = 0) ∧
      ((d4.hasVolZ = false ∨ d4.series = []) → z4 = 0) ∧
      (d4.hasVolZ = true → ∀ s v, (s, v) ∈ d4.series → s ≤ t →
        (∀ s' v', (s', v') ∈ d4.series → s' ≤ t → s' ≤ s) → z4 = v) ∧
      ((∀ s v, (s, v) ∈ d4.series → t < s) → z4 = 0)) := by
  have hcol : ∀ (d : LowTf), List.Pairwise (fun p q => p.1 < q.1) d.series → ∀ t : ℤ,
      ((d.hasVolZ = false ∨ d.series = []) → mergeColumnAt d t = 0) ∧
      (d.hasVolZ = true → ∀ s v, (s, v) ∈ d.series → s ≤ t →
        (∀ s' v', (s', v') ∈ d.series → s' ≤ t → s' ≤ s) → mergeColumnAt d t = v) ∧
      ((∀ s v, (s, v) ∈ d.series → t < s) → mergeColumnAt d t = 0) := by
    intro d hs t
    refine ⟨?_, ?_, ?_⟩
    · intro hdeg
      unfold mergeColumnAt
      rcases hdeg with hfalse | hempty
      · rw [if_neg]
        rintro ⟨htrue, -⟩
        rw [hfalse] at htrue
        cases htrue
      · rw [if_neg]
        rintro ⟨-, hne⟩
        exact hne hempty
    · intro htrue s v hmem hle hmax
      unfold mergeColumnAt
      rw [if_pos ⟨htrue, by intro he; rw [he] at hmem; cases hmem⟩,
        ffillLookup_eq_max d.series hs t s v hmem hle hmax]
      rfl
    · intro hafter
      unfold mergeColumnAt
      by_cases hcond : d.hasVolZ = true ∧ d.series ≠ []
      · rw [if_pos hcond]
        have hnil : d.series.filter (fun p => p.1 ≤ t) = [] := by
          rw [List.filter_eq_nil]
          intro p hp
          have := hafter p.1 p.2 (by simpa using hp)
          simpa using (by omega : ¬ (p.1 ≤ t))
        unfold ffillLookup
        rw [hnil]
        rfl
      · rw [if_neg hcond]
  refine ⟨by simp [mergeTimeframes], ?_, ?_⟩
  · unfold mergeTimeframes
    rw [List.map_map]
    rw [show ((fun (r : ℤ × α × ℚ × ℚ) => (r.1, r.2.1)) ∘
        fun (p : ℤ × α) => (p.1, p.2, mergeColumnAt d1 p.1, mergeColumnAt d4 p.1)) = id
      from rfl]
    exact List.map_id oneH
  · intro t a z1 z4 hmem
    unfold mergeTimeframes at hmem
    rw [List.mem_map] at hmem
    obtain ⟨p, hp, heq⟩ := hmem
    obtain ⟨rfl, rfl, rfl, rfl⟩ : t = p.1 ∧ a = p.2 ∧ z1 = mergeColumnAt d1 p.1
        ∧ z4 = mergeColumnAt d4 p.1 := by
      have h1 := congrArg Prod.fst heq
      have h2 := congrArg (fun r => r.2.1) heq
      have h3 := congrArg (fun r => r.2.2.1) heq
      have h4 := congrArg (fun r => r.2.2.2) heq
      exact ⟨h1.symm, h2.symm, h3.symm, h4.symm⟩
    obtain ⟨ha1, hb1, hc1⟩ := hcol d1 hs1 p.1
    obtain ⟨ha4, hb4, hc4⟩ := hcol d4 hs4 p.1
    exact ⟨ha1, hb1, hc1, ha4, hb4, hc4⟩

/-- Witness for C6 on a three-timestamp 1H table, an empty 1D series and a
two-point 4H series. -/
theorem merge_timeframes_ffill_witness :
    (mergeTimeframes exOneHC6 exD1C6 exD4C6).length = exOneHC6.length := by
  exact (merge_timeframes_ffill exOneHC6 exD1C6 exD4C6 (by decide) (by decide)).1

theorem sanitize_isFinite (c : PFloat) : (sanitize c).isFinite = true := by
  cases c <;> rfl

theorem add_isFinite {a b : PFloat} (ha : a.isFinite = true) (hb : b.isFinite = true) :
    (a.add b).isFinite = true := by
  cases a <;> cases b <;> simp_all [PFloat.isFinite, PFloat.add]

theorem sub_isFinite {a b : PFloat} (ha : a.isFinite = true) (hb : b.isFinite = true) :
    (a.sub b).isFinite = true := by
  cases a <;> cases b <;> simp_all [PFloat.isFinite, PFloat.sub]

theorem div_isFinite {a b : PFloat} {qb : ℚ} (ha : a.isFinite = true)
    (hb : b = .num qb) (hqb : qb ≠ 0) : (a.div b).isFinite = true := by
  subst hb
  cases a <;> simp_all [PFloat.isFinite, PFloat.div, hqb]

theorem foldl_add_isFinite :
    ∀ (l : List PFloat), (∀ c ∈ l, c.isFinite = true) →
      ∀ s : PFloat, s.isFinite = true → (l.foldl PFloat.add s).isFinite = true := by
  intro l
  induction l with
  | nil => intro _ s hs; exact hs
  | cons c l ih =>
    intro h s hs
    exact ih (fun x hx => h x (by simp [hx])) _ (add_isFinite hs (h c (by simp)))

theorem mem_windowSlice {l : List PFloat} {w i : ℕ} {c : PFloat}
    (hc : c ∈ windowSlice l w i) : c ∈ l := by
  unfold windowSlice at hc
  exact List.mem_of_mem_take (List.mem_of_mem_drop hc)

theorem windowSlice_length {l : List PFloat} {w i : ℕ} (hi : i < l.length) :
    (windowSlice l w i).length = min (i + 1) w := by
  unfold windowSlice
  rw [List.length_drop, List.length_take]
  omega

theorem filter_ne_nan_of_finite {l : List PFloat} (h : ∀ c ∈ l, c.isFinite = true) :
    l.filter (fun c => c ≠ .nan) = l := by
  apply List.filter_eq_self.mpr
  intro c hc
  have := h c hc
  cases c <;> simp_all [PFloat.isFinite]

theorem rollingMean_finite (w : ℕ) (l : List PFloat) (i : ℕ)
    (hw : 1 ≤ w) (hi : i < l.length) (hfin : ∀ c ∈ l, c.isFinite = true) :
    (rollingMean w 1 l i).isFinite = true := by
  unfold rollingMean
  have hfin' : ∀ c ∈ windowSlice l w i, c.isFinite = true :=
    fun c hc => hfin c (mem_windowSlice hc)
  rw [filter_ne_nan_of_finite hfin']
  have hlen : (windowSlice l w i).length = min (i + 1) w := windowSlice_length hi
  rw [if_neg (by omega)]
  refine div_isFinite (foldl_add_isFinite _ hfin' _ rfl) rfl ?_
  exact_mod_cast (by omega : (windowSlice l w i).length ≠ 0)

theorem rollingStd_shape (sqrtQ : ℚ → ℚ) (w minp : ℕ) (l : List PFloat) (i : ℕ) :
    rollingStd sqrtQ w minp l i = .nan ∨ ∃ q, rollingStd sqrtQ w minp l i = .num q := by
  unfold rollingStd
  dsimp only
  split_ifs
  · exact Or.inl rfl
  · exact Or.inl rfl
  · exact Or.inl rfl
  · exact Or.inr ⟨_, rfl⟩

theorem stdPipeline_num (sqrtQ : ℚ → ℚ) (w minp : ℕ) (l : List PFloat) (i : ℕ) :
    ∃ q, replaceVal 0 1 (fillna 1 (rollingStd sqrtQ w minp l i)) = .num q ∧ q ≠ 0 := by
  rcases rollingStd_shape sqrtQ w minp l i with h | ⟨q, h⟩
  · rw [h]
    exact ⟨1, by simp [fillna, replaceVal], one_ne_zero⟩
  · rw [h]
    by_cases hq : q = 0
    · subst hq
      exact ⟨1, by simp [fillna, replaceVal], one_ne_zero⟩
    · exact ⟨q, by simp [fillna, replaceVal, hq], hq⟩

theorem getD_isFinite {l : List PFloat} {i : ℕ} (hi : i < l.length)
    (hfin : ∀ c ∈ l, c.isFinite = true) :
    (l.getD i .nan).isFinite = true := by
  rw [List.getD_eq_getElem?_getD, List.getElem?_eq_getElem hi]
  exact hfin _ (List.getElem_mem hi)

theorem mobileVolZlast_finite (sqrtQ : ℚ → ℚ) (vols : List PFloat)
    (hnil : vols ≠ []) (hfin : ∀ c ∈ vols, c.isFinite = true) :
    (mobileVolZlast sqrtQ vols).isFinite = true := by
  unfold mobileVolZlast
  have hlen : 0 < vols.length := List.length_pos.mpr hnil
  have hi : vols.length - 1 < vols.length := by omega
  obtain ⟨q, hq, hq0⟩ := stdPipeline_num sqrtQ 60 1 vols (vols.length - 1)
  refine div_isFinite (sub_isFinite (getD_isFinite hi hfin) ?_) hq hq0
  exact rollingMean_finite 60 vols _ (by norm_num) hi hfin

theorem resample_vol_finite (p : ℤ) (df : List (ℤ × OhlcvRow))
    (hfin : ∀ r ∈ df, (r.2.vol).isFinite = true) :
    ∀ r ∈ resampleP p df, r.2.vol.isFinite = true := by
  intro r hr
  unfold resampleP at hr
  rw [List.mem_map] at hr
  obtain ⟨k, _hk, rfl⟩ := hr
  dsimp only
  apply foldl_add_isFinite
  · intro c hc
    have hc' := List.mem_of_mem_filter hc
    rw [List.mem_map] at hc'
    obtain ⟨r', hr', rfl⟩ := hc'
    exact hfin r' (List.mem_of_mem_filter hr')
  · rfl

/-- C7: after sanitization, no output feature value is NaN or infinite — the
desktop feature builder unconditionally (every cell of every output row is a
plain rational), and the on-device builder for every series of valid bars
(finite OHLV, finite positive close). -/
theorem features_always_finite :
    (∀ (sqrtQ : ℚ → ℚ) (df : List (ℤ × OhlcvRow)) (p : ℤ × FeatRow),
      p ∈ calculateFeatures sqrtQ df → p.2.allFinite = true)
    ∧ (∀ (sqrtQ : ℚ → ℚ) (df : List (ℤ × OhlcvRow)),
      (∀ r ∈ df, validBar r.2 = true) →
      (mobileFeatures sqrtQ df).allFinite = true) := by
  constructor
  · intro sqrtQ df p hp
    unfold calculateFeatures at hp
    rw [List.mem_filterMap] at hp
    obtain ⟨i, _hi, hpe⟩ := hp
    cases hdf : df.get? i with
    | none => rw [hdf] at hpe; cases hpe
    | some row =>
      rw [hdf] at hpe
      simp only [Option.map_some'] at hpe
      cases hpe
      simp [FeatRow.allFinite, sanitize_isFinite]
  · intro sqrtQ df hvalid
    have hfields : ∀ r ∈ df, r.2.op.isFinite = true ∧ r.2.hi.isFinite = true ∧
        r.2.lo.isFinite = true ∧ r.2.vol.isFinite = true ∧
        ∃ q, r.2.cl = .num q ∧ 0 < q := by
      intro r hr
      have hv := hvalid r hr
      unfold validBar at hv
      simp only [Bool.and_eq_true] at hv
      obtain ⟨⟨⟨⟨h1, h2⟩, h3⟩, h4⟩, h5⟩ := hv
      refine ⟨h1, h2, h3, h4, ?_⟩
      cases hcl : r.2.cl with
      | num q =>
        rw [hcl] at h5
        exact ⟨q, rfl, by simpa using h5⟩
      | nan => rw [hcl] at h5; cases h5
      | inf => rw [hcl] at h5; cases h5
      | ninf => rw [hcl] at h5; cases h5
    unfold mobileFeatures
    cases hlast : df.getLast? with
    | none => rfl
    | some lastRow =>
      have hmem : lastRow ∈ df := by
        obtain ⟨hne', heq⟩ :=
          List.mem_getLast?_eq_getLast (l := df) (x := lastRow) (Option.mem_def.mpr hlast)
        rw [heq]
        exact List.getLast_mem hne'
      obtain ⟨hop, hhi, hlo, hvol, qcl, hcl, hqcl⟩ := hfields lastRow hmem
      have hne : df ≠ [] := by
        intro h
        rw [h] at hlast
        cases hlast
      have hvols : ∀ c ∈ df.map (fun r => r.2.vol), c.isFinite = true := by
        intro c hc
        rw [List.mem_map] at hc
        obtain ⟨r, hr, rfl⟩ := hc
        exact (hfields r hr).2.2.2.1
      have hel : ((lastRow.2.hi.sub lastRow.2.lo).div lastRow.2.cl).isFinite = true :=
        div_isFinite (sub_isFinite hhi hlo) hcl (by positivity)
      have hz1 : (mobileVolZlast sqrtQ (df.map (fun r => r.2.vol))).isFinite = true := by
        refine mobileVolZlast_finite sqrtQ _ ?_ hvols
        intro h
        exact hne (List.map_eq_nil.mp h)
      have hz4 : ∀ per : ℤ,
          (match dropnaRows (resampleP per df) with
            | [] => PFloat.num 0
            | _ => mobileVolZlast sqrtQ
                ((dropnaRows (resampleP per df)).map
                  (fun (r : ℤ × OhlcvRow) => r.2.vol))).isFinite
            = true := by
        intro per
        cases hd : dropnaRows (resampleP per df) with
        | nil => rfl
        | cons a rest =>
          have hsub : ∀ r ∈ dropnaRows (resampleP per df), r.2.vol.isFinite = true := by
            intro r hr
            exact resample_vol_finite per df
              (fun r' hr' => (hfields r' hr').2.2.2.1) r (List.mem_of_mem_filter hr)
          rw [hd] at hsub
          refine mobileVolZlast_finite sqrtQ _ (by simp) ?_
          intro c hc
          rw [List.mem_map] at hc
          obtain ⟨r, hr, rfl⟩ := hc
          exact hsub r hr
      simp only [MobFeatures.allFinite, Bool.and_eq_true]
      exact ⟨⟨⟨⟨⟨⟨⟨⟨⟨⟨⟨⟨hel, hz1⟩, hz4 4⟩, hz4 24⟩, rfl⟩, rfl⟩, hz1⟩, hel⟩, hop⟩, hhi⟩,
        hlo⟩, by rw [hcl]; rfl⟩, hvol⟩

/-- Witness for C7's on-device component at the two valid example bars. -/
theorem features_always_finite_witness :
    (mobileFeatures sqrtZero exBarsC10).allFinite = true := by
  exact features_always_finite.2 sqrtZero exBarsC10 (by decide)

theorem windowSlice_map_num (vols : List ℚ) (w i : ℕ) :
    windowSlice (vols.map PFloat.num) w i = (windowVals w vols i).map PFloat.num := by
  unfold windowSlice windowVals
  rw [← List.map_take, ← List.map_drop]

theorem filter_map_num (l : List ℚ) :
    (l.map PFloat.num).filter (fun c => c ≠ .nan) = l.map PFloat.num := by
  refine filter_ne_nan_of_finite ?_
  intro c hc
  rw [List.mem_map] at hc
  obtain ⟨q, _, rfl⟩ := hc
  rfl

theorem foldl_add_map_num (l : List ℚ) :
    ∀ s : ℚ, (l.map PFloat.num).foldl PFloat.add (.num s) = .num (s + l.sum) := by
  induction l with
  | nil => intro s; simp
  | cons q l ih =>
    intro s
    simp only [List.map_cons, List.foldl_cons, PFloat.add, List.sum_cons]
    rw [ih]
    have : s + q + l.sum = s + (q + l.sum) := by ring
    rw [this]

theorem filterMap_toQ_map_num (l : List ℚ) :
    (l.map PFloat.num).filterMap PFloat.toQ? = l := by
  induction l with
  | nil => rfl
  | cons q l ih => simp_all [PFloat.toQ?]

theorem any_inf_map_num (l : List ℚ) :
    ((l.map PFloat.num).any fun c => c == PFloat.inf || c == PFloat.ninf) = false := by
  rw [List.any_eq_false]
  intro c hc
  rw [List.mem_map] at hc
  obtain ⟨q, _, rfl⟩ := hc
  simp

theorem windowVals_length (w : ℕ) (vols : List ℚ) (i : ℕ) (hi : i < vols.length) :
    (windowVals w vols i).length = min (i + 1) w := by
  unfold windowVals
  rw [List.length_drop, List.length_take]
  omega

/-- C8 corrected: the on-device rolling statistics (W = 60,
`min_periods=1`) do use whatever partial window is available — the mean from
the first row on, the sample standard deviation once two rows exist (at
row 0 it is NaN from `ddof=1`, immediately filled to 1.0 downstream) — but
the desktop trainer's W = 20 rolling mean and standard deviation use the
pandas default `min_periods` equal to the window, so every row with fewer
than 20 observations gets NaN (zeroed later by sanitization), not a
partial-window statistic. -/
theorem rolling_partial_windows (sqrtQ : ℚ → ℚ) (vols : List ℚ) (i : ℕ)
    (hi : i < vols.length) :
    (i < 19 → desktopVolMean (vols.map PFloat.num) i = PFloat.nan ∧
      desktopVolStd sqrtQ (vols.map PFloat.num) i = PFloat.nan) ∧
    mobileVolMean (vols.map PFloat.num) i
      = PFloat.num (qListMean (windowVals 60 vols i)) ∧
    (i = 0 → mobileVolStd sqrtQ (vols.map PFloat.num) i = PFloat.nan) ∧
    (1 ≤ i → mobileVolStd sqrtQ (vols.map PFloat.num) i
      = PFloat.num (sqrtQ (sampleVarQ (windowVals 60 vols i)))) := by
  have hlen : ∀ w : ℕ, (windowVals w vols i).length = min (i + 1) w :=
    fun w => windowVals_length w vols i hi
  refine ⟨?_, ?_, ?_, ?_⟩
  · intro h19
    constructor
    · unfold desktopVolMean rollingMean
      simp only [windowSlice_map_num, filter_map_num, List.length_map, hlen]
      rw [if_pos (by omega)]
    · unfold desktopVolStd rollingStd
      simp only [windowSlice_map_num, filter_map_num, List.length_map, hlen]
      rw [if_pos (by omega)]
  · unfold mobileVolMean rollingMean
    simp only [windowSlice_map_num, filter_map_num, List.length_map]
    rw [if_neg (by rw [hlen]; omega), foldl_add_map_num, zero_add]
    have hlen0 : ((windowVals 60 vols i).length : ℚ) ≠ 0 := by
      rw [hlen]
      exact_mod_cast (by omega : ¬ ((i + 1) ⊓ 60 = 0))
    simp only [PFloat.div, if_neg hlen0, qListMean]
  · intro h0
    subst h0
    unfold mobileVolStd rollingStd
    simp only [windowSlice_map_num, filter_map_num, List.length_map, hlen]
    rw [if_neg (by omega), if_pos (by omega)]
  · intro h1
    unfold mobileVolStd rollingStd
    simp only [windowSlice_map_num, filter_map_num, List.length_map, hlen,
      any_inf_map_num, filterMap_toQ_map_num]
    rw [if_neg (by omega), if_neg (by omega)]
    simp

/-- Witness for the corrected C8: on the two-row series `[5, 7]` the
on-device rolling mean at row 1 is the mean of the partial window. -/
theorem rolling_partial_windows_witness :
    mobileVolMean ([5, 7].map PFloat.num) 1
      = PFloat.num (qListMean (windowVals 60 [5, 7] 1)) := by
  exact (rolling_partial_windows sqrtZero [5, 7] 1 (by decide)).2.1

/-- Counterexample to C8 as stated: the desktop 20-window rolling mean on a
one-row series is NaN at row 0, not the partial-window mean 5. -/
theorem desktop_rolling_no_partial_counterexample :
    desktopVolMean [PFloat.num 5] 0 = PFloat.nan ∧
    PFloat.num (qListMean (windowVals 20 [5] 0)) = PFloat.num 5 ∧
    desktopVolMean [PFloat.num 5] 0 ≠ PFloat.num (qListMean (windowVals 20 [5] 0)) := by
  have h1 : desktopVolMean [PFloat.num 5] 0 = PFloat.nan := by decide
  have h2 : qListMean (windowVals 20 [5] 0) = 5 := by
    norm_num [qListMean, windowVals]
  refine ⟨h1, by rw [h2], ?_⟩
  rw [h1, h2]
  decide

/-- C10: the claim's Elasticity_1H formula (previous-close percentage change
divided by the zero-substituted volume z-score, NaN/inf replaced by 0) is
what the desktop trainer computes — on two bars with equal closes it gives
0 — but the on-device builder computes `(high − low) / close` instead,
giving 1/5 on the same bars: a training/serving feature skew. -/
theorem mobile_elasticity_divergence :
    (mobileFeatures sqrtZero exBarsC10).elasticity1H = PFloat.num (1 / 5) ∧
    ((calculateFeatures sqrtZero exBarsC10).get? 1).map (fun p => p.2.elasticity)
      = some (PFloat.num 0) ∧
    PFloat.num ((1 : ℚ) / 5) ≠ PFloat.num 0 := by
  refine ⟨?_, by decide, by norm_num⟩
  have hlast : exBarsC10.getLast?
      = some (1, ⟨PFloat.num 100, PFloat.num 110, PFloat.num 90,
          PFloat.num 100, PFloat.num 1000⟩) := rfl
  have hmob : (mobileFeatures sqrtZero exBarsC10).elasticity1H
      = ((PFloat.num 110).sub (PFloat.num 90)).div (PFloat.num 100) := by
    simp [mobileFeatures, hlast]
  rw [hmob]
  norm_num [PFloat.sub, PFloat.div]

end TradingAlert
